import Mathlib

/-!
# Verification of `exatombe/encoder` (`main.go`)

A shallow embedding of the Go program: the timecode parser
`parseTimeToSeconds`, the track-selection loop of `main`, the construction of
the `ffmpeg` argument list, one poll of the progress monitor and the lifecycle
of the temporary progress file.

Conventions of the embedding.

* A Go `string` is a Lean `String`; the library functions that inspect it work
  on its list of characters (`String.data`).  All separators and digits that the
  program looks at are ASCII, so characters and bytes agree on them.
* A Go `int` is a 64-bit two's complement integer: values are `Int`, and every
  arithmetic operation is followed by `wrapInt`.
* A Go `(int, error)` result is a pair `Int × Option _`, `none` being `nil`.
* `float64` values are finite binary floating point numbers
  `(-1)^neg * mant * 2^exp`, rounded to 53 significant bits, ties to even.
-/

set_option autoImplicit false

namespace Encoder

/-! ## Machine integers -/

/-- Two's complement reduction of an integer to the range of a 64-bit Go `int`. -/
def wrapInt (x : Int) : Int := (x + 2 ^ 63) % 2 ^ 64 - 2 ^ 63

/-! ## `strings` and `strconv` -/

/-- Go `strings.Split(s, sep)` for a one-character separator `sep`: the fields of
`s` between the occurrences of `sep`, always at least one field. -/
def Split (sep : Char) : List Char → List (List Char)
  | [] => [[]]
  | c :: cs =>
    if c = sep then [] :: Split sep cs
    else
      match Split sep cs with
      | [] => [[c]]
      | p :: ps => (c :: p) :: ps

/-- Value of a sequence of decimal digits, most significant first. -/
def digitsValue (ds : List Char) : Nat :=
  ds.foldl (fun n c => n * 10 + (c.toNat - '0'.toNat)) 0

/-- Go `strconv.Atoi` on a 64-bit platform: an optional sign `+` or `-`, then at
least one decimal digit and nothing else, the value lying in
`[-2^63, 2^63 - 1]`; `none` stands for a non-nil error (syntax or range). -/
def Atoi (s : List Char) : Option Int :=
  let neg : Bool := s.head? = some '-'
  let ds : List Char :=
    match s with
    | '-' :: r => r
    | '+' :: r => r
    | _ => s
  if ds = [] then none
  else if ds.all Char.isDigit = false then none
  else
    let n := digitsValue ds
    if neg then (if n ≤ 2 ^ 63 then some (-(n : Int)) else none)
    else (if n < 2 ^ 63 then some (n : Int) else none)

/-! ## `float64` -/

/-- A finite `float64` value `(-1)^neg * mant * 2^exp`. -/
structure Float64 where
  neg : Bool
  mant : Nat
  exp : Int
deriving DecidableEq, Repr

/-- The number of low-order bits to drop from `m` so that 53 significant bits
remain: the least `k` with `m / 2^k < 2^53`, found by repeated halving (at most
`fuel` times). -/
def excessBits : Nat → Nat → Nat
  | 0, _ => 0
  | fuel + 1, m => if m < 2 ^ 53 then 0 else excessBits fuel (m / 2) + 1

/-- Round `m * 2^e` to 53 significant bits, to nearest, ties to even (the IEEE 754
default rounding; exponent range limits are not reached by the values of this
program, whose magnitudes lie between `2^-72` and `2^64`). -/
def round53 (m : Nat) (e : Int) : Nat × Int :=
  if m < 2 ^ 53 then (m, e)
  else
    let k := excessBits m m
    let q := m / 2 ^ k
    let r := m % 2 ^ k
    let half := 2 ^ (k - 1)
    let q1 := if half < r ∨ (r = half ∧ q % 2 = 1) then q + 1 else q
    (q1, e + k)

/-- Go conversion `float64(n)` of an `int`. -/
def Float64.ofInt (n : Int) : Float64 :=
  let p := round53 n.natAbs 0
  { neg := decide (n < 0), mant := p.1, exp := p.2 }

/-- Go `float64` multiplication. -/
def Float64.mul (a b : Float64) : Float64 :=
  let p := round53 (a.mant * b.mant) (a.exp + b.exp)
  { neg := xor a.neg b.neg, mant := p.1, exp := p.2 }

/-- Go conversion `int(f)` of a `float64`: the fraction is discarded (truncation
towards zero). -/
def Float64.toInt (f : Float64) : Int :=
  let a : Nat :=
    if 0 ≤ f.exp then f.mant * 2 ^ f.exp.toNat else f.mant / 2 ^ (-f.exp).toNat
  if f.neg then -(a : Int) else (a : Int)

/-- The `float64` constant `1e-6`: the 53-bit value nearest to `10^-6`, which is
`4722366482869645 * 2^-72` (bit pattern `0x3EB0C6F7A0B5ED8D`). -/
def microsecond : Float64 := { neg := false, mant := 4722366482869645, exp := -72 }

/-! ## `parseTimeToSeconds` -/

/-- The errors `parseTimeToSeconds` returns. -/
inductive TimeError where
  | invalidFormat
  | parsingHours
  | parsingMinutes
  | parsingSeconds
deriving DecidableEq, Repr

/-- Go `secondsParts[0]` and `secondsParts[1]`: the fields of a list by position. -/
def field (parts : List (List Char)) (i : Nat) : List Char := parts.getD i []

/-- The function `parseTimeToSeconds` of `main.go`, on the characters of `timeStr`. -/
def parseTime (timeStr : List Char) : Int × Option TimeError :=
  let parts := Split ':' timeStr
  if parts.length ≠ 3 then (0, some TimeError.invalidFormat)
  else
    match Atoi (field parts 0) with
    | none => (0, some TimeError.parsingHours)
    | some hours =>
      match Atoi (field parts 1) with
      | none => (0, some TimeError.parsingMinutes)
      | some minutes =>
        let secondsParts := Split '.' (field parts 2)
        match Atoi (field secondsParts 0) with
        | none => (0, some TimeError.parsingSeconds)
        | some seconds =>
          let totalSeconds :=
            wrapInt (wrapInt (wrapInt (hours * 3600) + wrapInt (minutes * 60)) + seconds)
          if 1 < secondsParts.length then
            match Atoi (field secondsParts 1) with
            | some fractionalPart =>
              (wrapInt (totalSeconds +
                (Float64.mul (Float64.ofInt fractionalPart) microsecond).toInt), none)
            | none => (totalSeconds, none)
          else (totalSeconds, none)

/-- The function `parseTimeToSeconds` of `main.go`. -/
def parseTimeToSeconds (timeStr : String) : Int × Option TimeError :=
  parseTime timeStr.data

deriving instance DecidableEq for Except

/-! ## The probe result and the selection step of `main` -/

/-- The struct `Stream` of `main.go`; the nested `Tags` struct is flattened. -/
structure Stream where
  Index : Int
  CodecType : String
  Language : String
  Duration : String
deriving DecidableEq, Repr

/-- The struct `ProbeData` of `main.go`. -/
structure ProbeData where
  Streams : List Stream
deriving DecidableEq, Repr

/-- The reasons for which `main` ends through `log.Fatal` or `log.Fatalf`. -/
inductive Fatal where
  | pathRequired
  | ffprobeFailed
  | probeMalformed
  | parsingDuration (e : TimeError)
  | noAudioTrack
  | noSubtitleTrack
  | creatingTempFile
  | startingFfmpeg
  | videoProcessing
deriving DecidableEq, Repr

/-- The variables `audioTrackID`, `subtitleTrackID` and `totalDuration` of `main`. -/
structure Selection where
  audioTrackID : Int
  subtitleTrackID : Int
  totalDuration : Int
deriving DecidableEq, Repr

/-- The values of the three variables before the loop over the streams. -/
def Selection.initial : Selection :=
  { audioTrackID := -1, subtitleTrackID := -1, totalDuration := 0 }

/-- One iteration of the loop `for _, stream := range probe.Streams` of `main`. -/
def selectionStep (sel : Selection) (stream : Stream) : Except Fatal Selection :=
  let sel1 : Selection :=
    if stream.CodecType = "audio" ∧ stream.Language = "jpn" then
      { sel with audioTrackID := stream.Index }
    else sel
  let sel2 : Selection :=
    if stream.CodecType = "subtitle" ∧ stream.Language = "fre" then
      { sel1 with subtitleTrackID := stream.Index }
    else sel1
  if stream.Duration ≠ "" then
    match parseTimeToSeconds stream.Duration with
    | (d, none) => Except.ok { sel2 with totalDuration := d }
    | (_, some e) => Except.error (Fatal.parsingDuration e)
  else Except.ok sel2

/-- The loop `for _, stream := range probe.Streams` of `main`, from the state `sel`. -/
def selectionLoop (sel : Selection) : List Stream → Except Fatal Selection
  | [] => Except.ok sel
  | stream :: rest =>
    match selectionStep sel stream with
    | Except.ok sel1 => selectionLoop sel1 rest
    | Except.error f => Except.error f

/-- Step 3 of `main`: the loop followed by the two not-found checks. -/
def selectTracks (streams : List Stream) : Except Fatal Selection :=
  match selectionLoop Selection.initial streams with
  | Except.error f => Except.error f
  | Except.ok sel =>
    if sel.audioTrackID = -1 then Except.error Fatal.noAudioTrack
    else if sel.subtitleTrackID = -1 then Except.error Fatal.noSubtitleTrack
    else Except.ok sel

/-! ## The transcoder command -/

/-- Go `fmt.Sprintf("%d", n)`: the decimal rendering of an `int`. -/
def formatDecimal (n : Int) : String := toString n

/-- The field `ffmpegCmd.Args` built by `exec.Command("ffmpeg", ...)` in `main`. -/
def ffmpegArgs (path output : String) (sel : Selection) (progressFile : String) :
    List String :=
  ["ffmpeg",
   "-i", path,
   "-y",
   "-map", "0:v",
   "-map", "0:" ++ formatDecimal sel.audioTrackID,
   "-vf", "subtitles=" ++ path,
   "-c:v", "h264_nvenc",
   "-crf", "28",
   "-preset", "slow",
   "-c:a", "aac",
   "-b:a", "128k",
   "-progress", progressFile,
   output]

/-! ## One poll of the progress monitor -/

/-- Go `strings.Contains(s, sub)`. -/
def Contains (s sub : List Char) : Bool :=
  match s with
  | [] => sub.isEmpty
  | c :: cs => sub.isPrefixOf (c :: cs) || Contains cs sub

/-- Go `unicode.IsSpace`. -/
def isSpace (c : Char) : Bool :=
  let n := c.toNat
  n = 0x09 || n = 0x0A || n = 0x0B || n = 0x0C || n = 0x0D || n = 0x20 || n = 0x85 ||
  n = 0xA0 || n = 0x1680 || (0x2000 ≤ n && n ≤ 0x200A) || n = 0x2028 || n = 0x2029 ||
  n = 0x202F || n = 0x205F || n = 0x3000

/-- Go `strings.TrimSpace`. -/
def TrimSpace (s : List Char) : List Char :=
  ((s.dropWhile isSpace).reverse.dropWhile isSpace).reverse

/-- The body of the loop `for scanner.Scan()` of the monitor: `bar` is the value
the progress indicator holds (the argument of the latest `bar.Set`), `line` is
`scanner.Text()`; the result is the value held after the iteration. -/
def scanLine (bar : Int) (line : String) : Int :=
  if Contains line.data "out_time=".data then
    let parts := Split '=' line.data
    if parts.length = 2 then
      let timeValue := TrimSpace (field parts 1)
      match parseTime timeValue with
      | (actualSeconds, none) => actualSeconds
      | (_, some _) => bar
    else bar
  else bar

/-- Go `bufio.MaxScanTokenSize`, the buffer limit of a scanner made by
`bufio.NewScanner`. -/
def MaxScanTokenSize : Nat := 64 * 1024

/-- The number of bytes of a text in UTF-8, the length of the Go string. -/
def byteLen (l : List Char) : Nat := (l.map Char.utf8Size).sum

/-- The lines of a file content as `bufio.ScanLines` cuts them: the pieces ended
by `'\n'`, and the piece after the last `'\n'` if it is not empty. -/
def fileLines : List Char → List (List Char)
  | [] => []
  | c :: cs =>
    if c = '\n' then [] :: fileLines cs
    else
      match fileLines cs with
      | [] => [[c]]
      | l :: ls => (c :: l) :: ls

/-- Go `dropCR` of `bufio`: one trailing `'\r'` is removed. -/
def dropCR (l : List Char) : List Char :=
  if l.getLast? = some '\r' then l.dropLast else l

/-- The values of `scanner.Text()` in the successive turns of the loop
`for scanner.Scan()` over a file of the given content: the lines in order, each
without its trailing `'\r'`; `Scan` returns false for good at the first line that
does not fit the buffer, one of `MaxScanTokenSize` bytes or more (the error is
never inspected), so that line and the ones after it are not seen. -/
def scannedLines (content : String) : List String :=
  (((fileLines content.data).takeWhile
    (fun l => decide (byteLen l < MaxScanTokenSize))).map dropCR).map String.mk

/-- One pass of the monitor over the progress file of the given content: the loop
`for scanner.Scan()` with its body `scanLine`. -/
def pollOnce (bar : Int) (content : String) : Int :=
  (scannedLines content).foldl scanLine bar

/-! ## The run of `main` -/

/-- What the prober step (steps 1 and 2 of `main`) ends with. -/
inductive ProbeOutcome where
  | commandFailed
  | malformed
  | parsed (probe : ProbeData)
deriving DecidableEq, Repr

/-- The inputs of one run of `main` and the outcomes of its external actions. -/
structure Run where
  path : String
  output : String
  probe : ProbeOutcome
  createTemp : Option String
  startOk : Bool
  waitOk : Bool
deriving DecidableEq, Repr

/-- How `main` ended: by returning, or through `log.Fatal`/`log.Fatalf`. -/
inductive Exit where
  | completed
  | fatal (f : Fatal)
deriving DecidableEq, Repr

/-- The state at program exit: how `main` ended, the files that exist, and the
argument list of the transcoder if one was built. -/
structure Final where
  exit : Exit
  files : List String
  command : Option (List String)
deriving DecidableEq, Repr

/-- Go `os.Remove(name)` on the set of existing files. -/
def osRemove (name : String) (files : List String) : List String :=
  files.filter (fun f => f ≠ name)

/-- Go `log.Fatalf`: the message is logged and `os.Exit(1)` is called; the program
ends at once and the deferred calls (the names in `deferred`) are not run. -/
def logFatalf (f : Fatal) (files _deferred : List String)
    (command : Option (List String)) : Final :=
  { exit := Exit.fatal f, files := files, command := command }

/-- Return from `main`: the deferred `os.Remove` calls run, then the program ends. -/
def returnFromMain (files deferred : List String) (command : Option (List String)) :
    Final :=
  { exit := Exit.completed, files := deferred.foldl (fun fs name => osRemove name fs) files,
    command := command }

/-- The function `main` of `main.go`: `files` are the files that exist when it
starts, `r` gives the command line and the outcomes of the external actions. -/
def main (r : Run) (files : List String) : Final :=
  if r.path = "" then logFatalf Fatal.pathRequired files [] none
  else
    match r.probe with
    | ProbeOutcome.commandFailed => logFatalf Fatal.ffprobeFailed files [] none
    | ProbeOutcome.malformed => logFatalf Fatal.probeMalformed files [] none
    | ProbeOutcome.parsed probe =>
      match selectTracks probe.Streams with
      | Except.error f => logFatalf f files [] none
      | Except.ok sel =>
        match r.createTemp with
        | none => logFatalf Fatal.creatingTempFile files [] none
        | some progressFile =>
          let files1 := progressFile :: files
          let deferred := [progressFile]
          let command := ffmpegArgs r.path r.output sel progressFile
          if r.startOk = false then
            logFatalf Fatal.startingFfmpeg files1 deferred (some command)
          else if r.waitOk = false then
            logFatalf Fatal.videoProcessing files1 deferred (some command)
          else returnFromMain files1 deferred (some command)

/-! ## The properties, in the words of the specification -/

/-- The audio predicate of the selector: codec type `audio`, language `jpn`. -/
def isJapaneseAudio (s : Stream) : Bool :=
  decide (s.CodecType = "audio" ∧ s.Language = "jpn")

/-- The subtitle predicate of the selector: codec type `subtitle`, language `fre`. -/
def isFrenchSubtitle (s : Stream) : Bool :=
  decide (s.CodecType = "subtitle" ∧ s.Language = "fre")

/-- A stream that carries a non-empty duration tag. -/
def hasDuration (s : Stream) : Bool := decide (s.Duration ≠ "")

/-- Every non-empty duration tag of the probe result parses. -/
def durationsParse (streams : List Stream) : Prop :=
  ∀ s ∈ streams, s.Duration ≠ "" → (parseTimeToSeconds s.Duration).2 = none

/-- A decimal integer literal: an optional sign followed by one or more decimal
digits. -/
def isDecimalLiteral (f : List Char) : Bool :=
  match f with
  | '-' :: r => !r.isEmpty && r.all Char.isDigit
  | '+' :: r => !r.isEmpty && r.all Char.isDigit
  | _ => !f.isEmpty && f.all Char.isDigit

/-- The text of a field before its first `'.'`. -/
def wholePart (f : List Char) : List Char := f.takeWhile (fun c => c ≠ '.')

/-- A string of decimal digits, as a list of characters. -/
def isDigits (f : List Char) : Prop := ∀ c ∈ f, c.isDigit = true

instance (f : List Char) : Decidable (isDigits f) :=
  inferInstanceAs (Decidable (∀ c ∈ f, c.isDigit = true))

/-- The timecode `H:M:S`. -/
def timecode (H M S : List Char) : String := String.mk (H ++ ':' :: (M ++ ':' :: S))

/-- The timecode `H:M:S.F`. -/
def timecodeFrac (H M S F : List Char) : String :=
  String.mk (H ++ ':' :: (M ++ ':' :: (S ++ '.' :: F)))

/-- The progress update of the specification for one line: a line of the form
`out_time=<value>` whose value the duration parser accepts sets the indicator
to the parsed value, any other line leaves it as it is. -/
def specScanLine (bar : Int) (line : String) : Int :=
  if "out_time=".data.isPrefixOf line.data then
    match parseTime (line.data.drop 9) with
    | (v, none) => v
    | (_, some _) => bar
  else bar

/-- The update of the code for one line, as an optional new value: the line
contains `out_time=`, has exactly one `'='`, and what follows it, trimmed of
white space, is accepted by the duration parser. -/
def lineUpdate (line : String) : Option Int :=
  if Contains line.data "out_time=".data = true ∧ (line.data.count '=' = 1) then
    match parseTime (TrimSpace ((line.data.dropWhile (fun c => c ≠ '=')).drop 1)) with
    | (v, none) => some v
    | (_, some _) => none
  else none

/-- A probe result with duplicate matches: audio/jpn streams 2 and 7, subtitle/fre
streams 5 and 9. -/
def duplicateStreams : List Stream :=
  [⟨0, "video", "", ""⟩, ⟨2, "audio", "jpn", ""⟩, ⟨5, "subtitle", "fre", ""⟩,
   ⟨7, "audio", "jpn", ""⟩, ⟨9, "subtitle", "fre", ""⟩]

/-- A probe result with one match of each kind: audio/jpn stream 2, subtitle/fre
stream 5. -/
def uniqueStreams : List Stream :=
  [⟨0, "video", "", ""⟩, ⟨2, "audio", "jpn", ""⟩, ⟨3, "audio", "eng", ""⟩,
   ⟨5, "subtitle", "fre", ""⟩]

/-- A probe result whose stream A (`00:10:00`) precedes stream B (`00:20:00`). -/
def twoDurations : List Stream :=
  [⟨0, "video", "", "00:10:00"⟩, ⟨1, "audio", "jpn", "00:20:00"⟩, ⟨2, "subtitle", "fre", ""⟩]

/-- A probe result without any audio stream tagged jpn. -/
def noJapaneseAudio : List Stream :=
  [⟨0, "video", "", "00:10:00"⟩, ⟨1, "audio", "eng", ""⟩, ⟨2, "subtitle", "fre", ""⟩]

/-- A run of `main` on the probe result `streams` in which every external action
succeeds. -/
def goodRun (streams : List Stream) : Run :=
  { path := "in.mkv", output := "output.mp4", probe := ProbeOutcome.parsed ⟨streams⟩,
    createTemp := some "/tmp/ffmpeg_progress_1.txt", startOk := true, waitOk := true }

/-- The run `goodRun uniqueStreams` in which `ffmpegCmd.Start()` returns an error. -/
def startFailsRun : Run := { goodRun uniqueStreams with startOk := false }

/-- The run `goodRun uniqueStreams` in which `ffmpegCmd.Wait()` returns an error. -/
def waitFailsRun : Run := { goodRun uniqueStreams with waitOk := false }

/-- One pass of the progress update of the specification over the lines of a
progress file of the given content. -/
def specPoll (bar : Int) (content : String) : Int :=
  ((fileLines content.data).map String.mk).foldl specScanLine bar

/-- The content of a progress file: an update to 10 seconds, an unparsable value, a
later update to 5 seconds and a line of another key. -/
def progressFile : String :=
  "frame=120\nout_time=00:00:10.000000\nout_time=N/A\nout_time=00:00:05.000000\nspeed=1.5x\n"

/-- The content of a progress file whose second line has 65536 bytes: an update to
3 seconds, the long line, an update to 5 seconds. -/
def longLineFile : String :=
  String.mk ("out_time=00:00:03".data ++ '\n' ::
    (List.replicate 65536 'x' ++ '\n' :: "out_time=00:00:05\n".data))

/-- A probe result like `uniqueStreams` whose subtitle/fre stream has index 6. -/
def otherSubtitle : List Stream :=
  [⟨0, "video", "", ""⟩, ⟨2, "audio", "jpn", ""⟩, ⟨3, "audio", "eng", ""⟩,
   ⟨6, "subtitle", "fre", ""⟩]

/-! ## Lemmas on `Split`, `Atoi` and `wrapInt` -/

theorem Split_ne_nil (sep : Char) (l : List Char) : Split sep l ≠ [] := by
  cases l with
  | nil => simp [Split]
  | cons c cs =>
    unfold Split
    split_ifs
    · simp
    · split <;> simp

theorem Split_of_not_mem (sep : Char) (l : List Char) (h : ∀ c ∈ l, c ≠ sep) :
    Split sep l = [l] := by
  induction l with
  | nil => rfl
  | cons c cs ih =>
    have hc : c ≠ sep := h c (List.mem_cons_self _ _)
    have hcs : ∀ d ∈ cs, d ≠ sep := fun d hd => h d (List.mem_cons_of_mem _ hd)
    simp [Split, hc, ih hcs]

theorem Split_append (sep : Char) (a b : List Char) (h : ∀ c ∈ a, c ≠ sep) :
    Split sep (a ++ sep :: b) = a :: Split sep b := by
  induction a with
  | nil => simp [Split]
  | cons c cs ih =>
    have hc : c ≠ sep := h c (List.mem_cons_self _ _)
    have hcs : ∀ d ∈ cs, d ≠ sep := fun d hd => h d (List.mem_cons_of_mem _ hd)
    simp [Split, hc, ih hcs]

theorem wrapInt_of_small (x : Int) (h0 : 0 ≤ x) (h1 : x < 2 ^ 63) : wrapInt x = x := by
  unfold wrapInt
  norm_num at h1 ⊢
  omega

theorem isDigit_ne (c d : Char) (hc : c.isDigit = true) (hd : d.isDigit = false) :
    c ≠ d := by
  rintro rfl
  rw [hc] at hd
  exact Bool.noConfusion hd

theorem Atoi_digits (ds : List Char) (hne : ds ≠ []) (hd : isDigits ds)
    (hv : digitsValue ds < 2 ^ 63) : Atoi ds = some (digitsValue ds : Int) := by
  have hall : ds.all Char.isDigit = true := List.all_eq_true.mpr hd
  cases ds with
  | nil => exact absurd rfl hne
  | cons c cs =>
    have hc : c.isDigit = true := hd c (List.mem_cons_self _ _)
    have h1 : c ≠ '-' := isDigit_ne c '-' hc (by decide)
    have h2 : c ≠ '+' := isDigit_ne c '+' hc (by decide)
    have hds : (match c :: cs with
        | '-' :: r => r
        | '+' :: r => r
        | _ => c :: cs) = c :: cs := by
      split
      · next heq => exact absurd (List.cons.inj heq).1 h1
      · next heq => exact absurd (List.cons.inj heq).1 h2
      · rfl
    unfold Atoi
    have hv1 : digitsValue (c :: cs) < 9223372036854775808 := by
      norm_num at hv
      exact hv
    simp only [hds, List.head?_cons, Option.some.injEq, h1, decide_False, hall]
    simp [hv1]

/-! ## The duration parser -/

theorem parseTime_fields (H M T : List Char) (dH : isDigits H) (dM : isDigits M)
    (hT : ∀ c ∈ T, c ≠ ':') :
    Split ':' (H ++ ':' :: (M ++ ':' :: T)) = [H, M, T] := by
  have cH : ∀ c ∈ H, c ≠ ':' := fun c hc => isDigit_ne c ':' (dH c hc) (by decide)
  have cM : ∀ c ∈ M, c ≠ ':' := fun c hc => isDigit_ne c ':' (dM c hc) (by decide)
  rw [Split_append _ _ _ cH, Split_append _ _ _ cM, Split_of_not_mem _ _ hT]

theorem wholeSeconds_small (h m s : Int) (h0 : 0 ≤ h) (m0 : 0 ≤ m) (s0 : 0 ≤ s)
    (hs : h * 3600 + m * 60 + s < 2 ^ 63) :
    wrapInt (wrapInt (wrapInt (h * 3600) + wrapInt (m * 60)) + s) = h * 3600 + m * 60 + s := by
  norm_num at hs
  rw [wrapInt_of_small (h * 3600) (by omega) (by norm_num; omega)]
  rw [wrapInt_of_small (m * 60) (by omega) (by norm_num; omega)]
  rw [wrapInt_of_small (h * 3600 + m * 60) (by omega) (by norm_num; omega)]
  rw [wrapInt_of_small _ (by omega) (by norm_num; omega)]

theorem parseTimeToSeconds_whole (H M S : List Char)
    (hH : H ≠ []) (hM : M ≠ []) (hS : S ≠ [])
    (dH : isDigits H) (dM : isDigits M) (dS : isDigits S)
    (hsmall : digitsValue H * 3600 + digitsValue M * 60 + digitsValue S < 2 ^ 63) :
    parseTimeToSeconds (timecode H M S) =
      (((digitsValue H * 3600 + digitsValue M * 60 + digitsValue S : Nat) : Int), none) := by
  have cS : ∀ c ∈ S, c ≠ ':' := fun c hc => isDigit_ne c ':' (dS c hc) (by decide)
  have pS : ∀ c ∈ S, c ≠ '.' := fun c hc => isDigit_ne c '.' (dS c hc) (by decide)
  have vH : digitsValue H < 2 ^ 63 := by norm_num at hsmall ⊢; omega
  have vM : digitsValue M < 2 ^ 63 := by norm_num at hsmall ⊢; omega
  have vS : digitsValue S < 2 ^ 63 := by norm_num at hsmall ⊢; omega
  unfold parseTimeToSeconds timecode parseTime
  simp only [parseTime_fields H M S dH dM cS]
  simp [field, Atoi_digits H hH dH vH, Atoi_digits M hM dM vM, Atoi_digits S hS dS vS,
    Split_of_not_mem '.' S pS]
  rw [wholeSeconds_small _ _ _ (by omega) (by omega) (by omega)
    (by norm_num at hsmall ⊢; omega)]

/-- C4: for every timecode `H:M:S` whose three fields are non-empty strings of
decimal digits with `H*3600 + M*60 + S` below `2^63`, `parseTimeToSeconds`
returns exactly `H*3600 + M*60 + S` with a nil error. -/
theorem parseTimeToSeconds_integer_timecode (H M S : List Char)
    (hH : H ≠ []) (hM : M ≠ []) (hS : S ≠ [])
    (dH : isDigits H) (dM : isDigits M) (dS : isDigits S)
    (hsmall : digitsValue H * 3600 + digitsValue M * 60 + digitsValue S < 2 ^ 63) :
    parseTimeToSeconds (timecode H M S) =
      (((digitsValue H * 3600 + digitsValue M * 60 + digitsValue S : Nat) : Int), none) := by
  have cS : ∀ c ∈ S, c ≠ ':' := fun c hc => isDigit_ne c ':' (dS c hc) (by decide)
  have pS : ∀ c ∈ S, c ≠ '.' := fun c hc => isDigit_ne c '.' (dS c hc) (by decide)
  have vH : digitsValue H < 2 ^ 63 := by norm_num at hsmall ⊢; omega
  have vM : digitsValue M < 2 ^ 63 := by norm_num at hsmall ⊢; omega
  have vS : digitsValue S < 2 ^ 63 := by norm_num at hsmall ⊢; omega
  unfold parseTimeToSeconds timecode parseTime
  simp only [parseTime_fields H M S dH dM cS]
  simp [field, Atoi_digits H hH dH vH, Atoi_digits M hM dM vM, Atoi_digits S hS dS vS,
    Split_of_not_mem '.' S pS]
  rw [wholeSeconds_small _ _ _ (by omega) (by omega) (by omega)
    (by norm_num at hsmall ⊢; omega)]

/-- C4, witness: the timecode `01:02:03` gives 3723 seconds and a nil error. -/
theorem parseTimeToSeconds_integer_timecode_witness :
    parseTimeToSeconds "01:02:03" = (3723, none) :=
  parseTimeToSeconds_integer_timecode ['0', '1'] ['0', '2'] ['0', '3']
    (by decide) (by decide) (by decide) (by decide) (by decide) (by decide) (by decide)

theorem Atoi_isSome_literal (f : List Char) (v : Int) (h : Atoi f = some v) :
    isDecimalLiteral f = true := by
  unfold Atoi at h
  unfold isDecimalLiteral
  split at h
  · simp only [] at h
    split_ifs at h with h1 h2 <;> simp_all
  · simp only [] at h
    split_ifs at h with h1 h2 <;> simp_all
  · next h3 h4 =>
    simp only [] at h
    split_ifs at h with h1 h2 <;> simp_all

theorem Atoi_not_literal (f : List Char) (h : isDecimalLiteral f = false) :
    Atoi f = none := by
  cases hA : Atoi f with
  | none => rfl
  | some v =>
    rw [Atoi_isSome_literal f v hA] at h
    exact Bool.noConfusion h

theorem field_zero_Split (sep : Char) (l : List Char) :
    field (Split sep l) 0 = l.takeWhile (fun c => c ≠ sep) := by
  induction l with
  | nil => simp [Split, field]
  | cons c cs ih =>
    by_cases hc : c = sep
    · simp [Split, field, hc]
    · have hne := Split_ne_nil sep cs
      cases hS : Split sep cs with
      | nil => exact absurd hS hne
      | cons p ps =>
        rw [hS] at ih
        simp only [field, List.getD_cons_zero] at ih
        simp [Split, field, hc, hS, ih]

/-- C5: `parseTimeToSeconds` is a total function that gives result 0 with every
non-nil error, and it returns a non-nil error (with result 0) whenever splitting
on `':'` does not give exactly three fields, or the hours field, the minutes
field or the text of the third field before its first `'.'` is not a decimal
integer literal. -/
theorem parseTimeToSeconds_rejects_malformed (timeStr : String) :
    ((∃ n, parseTimeToSeconds timeStr = (n, none)) ∨
      (∃ e, parseTimeToSeconds timeStr = (0, some e))) ∧
    (((Split ':' timeStr.data).length ≠ 3 ∨
        isDecimalLiteral (field (Split ':' timeStr.data) 0) = false ∨
        isDecimalLiteral (field (Split ':' timeStr.data) 1) = false ∨
        isDecimalLiteral (wholePart (field (Split ':' timeStr.data) 2)) = false) →
      ∃ e, parseTimeToSeconds timeStr = (0, some e)) := by
  constructor
  · unfold parseTimeToSeconds parseTime
    simp only []
    by_cases h3 : (Split ':' timeStr.data).length ≠ 3
    · exact Or.inr ⟨_, if_pos h3⟩
    · rw [if_neg h3]
      cases hA : Atoi (field (Split ':' timeStr.data) 0) with
      | none => exact Or.inr ⟨_, rfl⟩
      | some hours =>
        cases hB : Atoi (field (Split ':' timeStr.data) 1) with
        | none => exact Or.inr ⟨_, rfl⟩
        | some minutes =>
          cases hC : Atoi (field (Split '.' (field (Split ':' timeStr.data) 2)) 0) with
          | none => exact Or.inr ⟨_, rfl⟩
          | some seconds =>
            simp only []
            split_ifs
            · cases hD : Atoi (field (Split '.' (field (Split ':' timeStr.data) 2)) 1) with
              | none => exact Or.inl ⟨_, rfl⟩
              | some fractionalPart => exact Or.inl ⟨_, rfl⟩
            · exact Or.inl ⟨_, rfl⟩
  · intro h
    unfold parseTimeToSeconds parseTime
    simp only []
    by_cases h3 : (Split ':' timeStr.data).length ≠ 3
    · exact ⟨_, if_pos h3⟩
    · rw [if_neg h3]
      have h' := h.resolve_left h3
      cases hA : Atoi (field (Split ':' timeStr.data) 0) with
      | none => exact ⟨_, rfl⟩
      | some hours =>
        have l0 := Atoi_isSome_literal _ _ hA
        cases hB : Atoi (field (Split ':' timeStr.data) 1) with
        | none => exact ⟨_, rfl⟩
        | some minutes =>
          have l1 := Atoi_isSome_literal _ _ hB
          have h2 : isDecimalLiteral (wholePart (field (Split ':' timeStr.data) 2)) = false := by
            rcases h' with h' | h' | h'
            · rw [l0] at h'
              exact Bool.noConfusion h'
            · rw [l1] at h'
              exact Bool.noConfusion h'
            · exact h'
          have hC : Atoi (field (Split '.' (field (Split ':' timeStr.data) 2)) 0) = none := by
            rw [field_zero_Split]
            exact Atoi_not_literal _ h2
          simp only [hC]
          exact ⟨_, rfl⟩

/-- C5, witness: the malformed timecodes `1:02` (two fields) and `ab:cd:ef`
(letters) are rejected with an error and result 0. -/
theorem parseTimeToSeconds_rejects_malformed_witness :
    (∃ e, parseTimeToSeconds "1:02" = (0, some e)) ∧
    (∃ e, parseTimeToSeconds "ab:cd:ef" = (0, some e)) :=
  ⟨(parseTimeToSeconds_rejects_malformed "1:02").2 (Or.inl (by decide)),
   (parseTimeToSeconds_rejects_malformed "ab:cd:ef").2 (Or.inr (Or.inl (by decide)))⟩

/-- C6, counterexample: negatively signed fields are accepted; `-1:00:00` and
`00:-5:00` return a nil error and a negative seconds count. -/
theorem parseTimeToSeconds_negative_field_accepted :
    parseTimeToSeconds "-1:00:00" = (-3600, none) ∧
    parseTimeToSeconds "00:-5:00" = (-300, none) := by
  constructor <;> decide

/-- C6, amended: on every input that `parseTimeToSeconds` accepts, the hours,
minutes and whole-seconds fields are decimal integer literals with an optional
sign `+` or `-`, denoting integers `h`, `m` and `s`; when these three are
non-negative, the third field has no fractional suffix and `h*3600 + m*60 + s` is
below `2^63`, the returned seconds count is that sum and is non-negative. -/
theorem parseTimeToSeconds_accepts_signed_literals (timeStr : String) (n : Int)
    (hok : parseTimeToSeconds timeStr = (n, none)) :
    ∃ h m s : Int,
      Atoi (field (Split ':' timeStr.data) 0) = some h ∧
      Atoi (field (Split ':' timeStr.data) 1) = some m ∧
      Atoi (wholePart (field (Split ':' timeStr.data) 2)) = some s ∧
      isDecimalLiteral (field (Split ':' timeStr.data) 0) = true ∧
      isDecimalLiteral (field (Split ':' timeStr.data) 1) = true ∧
      isDecimalLiteral (wholePart (field (Split ':' timeStr.data) 2)) = true ∧
      (0 ≤ h → 0 ≤ m → 0 ≤ s → (∀ c ∈ field (Split ':' timeStr.data) 2, c ≠ '.') →
        h * 3600 + m * 60 + s < 2 ^ 63 → n = h * 3600 + m * 60 + s ∧ 0 ≤ n) := by
  unfold parseTimeToSeconds parseTime at hok
  simp only [] at hok
  by_cases h3 : (Split ':' timeStr.data).length ≠ 3
  · rw [if_pos h3] at hok
    exact absurd (congrArg Prod.snd hok) (by simp)
  · rw [if_neg h3] at hok
    cases hA : Atoi (field (Split ':' timeStr.data) 0) with
    | none =>
      rw [hA] at hok
      exact absurd (congrArg Prod.snd hok) (by simp)
    | some hours =>
      cases hB : Atoi (field (Split ':' timeStr.data) 1) with
      | none =>
        rw [hA, hB] at hok
        exact absurd (congrArg Prod.snd hok) (by simp)
      | some minutes =>
        cases hC : Atoi (field (Split '.' (field (Split ':' timeStr.data) 2)) 0) with
        | none =>
          rw [hA, hB, hC] at hok
          exact absurd (congrArg Prod.snd hok) (by simp)
        | some seconds =>
          have hC1 : Atoi (wholePart (field (Split ':' timeStr.data) 2)) = some seconds := by
            rw [← hC, field_zero_Split]
            rfl
          refine ⟨hours, minutes, seconds, rfl, rfl, hC1, Atoi_isSome_literal _ _ hA,
            Atoi_isSome_literal _ _ hB, Atoi_isSome_literal _ _ hC1, ?_⟩
          intro h0 m0 s0 hdot hsum
          rw [hA, hB, hC] at hok
          simp only [Split_of_not_mem '.' _ hdot, List.length_singleton, lt_irrefl,
            if_false] at hok
          rw [wholeSeconds_small _ _ _ h0 m0 s0 hsum] at hok
          have hn : n = hours * 3600 + minutes * 60 + seconds := (congrArg Prod.fst hok).symm
          exact ⟨hn, by rw [hn]; positivity⟩

/-- C6, amended, witness: `00:01:05` is accepted, its fields denote 0, 1 and 5, no
field is negative, and the result 65 is their weighted sum. -/
theorem parseTimeToSeconds_accepts_signed_literals_witness :
    parseTimeToSeconds "00:01:05" = (65, none) ∧
    Atoi (field (Split ':' "00:01:05".data) 0) = some 0 ∧
    Atoi (field (Split ':' "00:01:05".data) 1) = some 1 ∧
    Atoi (wholePart (field (Split ':' "00:01:05".data) 2)) = some 5 ∧
    (65 : Int) = 0 * 3600 + 1 * 60 + 5 ∧ (0 : Int) ≤ 65 := by
  have hok : parseTimeToSeconds "00:01:05" = (65, none) := by decide
  obtain ⟨h, m, s, hA, hB, hC, _, _, _, himp⟩ :=
    parseTimeToSeconds_accepts_signed_literals "00:01:05" 65 hok
  have h0 : h = 0 := by
    have e : Atoi (field (Split ':' "00:01:05".data) 0) = some 0 := by decide
    rw [e] at hA
    exact (Option.some.inj hA).symm
  have m1 : m = 1 := by
    have e : Atoi (field (Split ':' "00:01:05".data) 1) = some 1 := by decide
    rw [e] at hB
    exact (Option.some.inj hB).symm
  have s5 : s = 5 := by
    have e : Atoi (wholePart (field (Split ':' "00:01:05".data) 2)) = some 5 := by decide
    rw [e] at hC
    exact (Option.some.inj hC).symm
  subst h0 m1 s5
  have hres := himp (by decide) (by decide) (by decide) (by decide) (by decide)
  exact ⟨hok, hA, hB, hC, hres.1, hres.2⟩

/-! ## The fractional term -/

theorem excessBits_le (fuel m : Nat) (hm : 2 ^ 53 ≤ m) :
    2 ^ (excessBits fuel m + 52) ≤ m := by
  induction fuel generalizing m with
  | zero =>
    simp only [excessBits, Nat.zero_add]
    exact le_trans (Nat.pow_le_pow_right (by norm_num) (by norm_num)) hm
  | succ fuel ih =>
    have hnot : ¬ m < 2 ^ 53 := not_lt.mpr hm
    simp only [excessBits, if_neg hnot]
    by_cases h2 : 2 ^ 53 ≤ m / 2
    · have := ih (m / 2) h2
      have e : 2 ^ (excessBits fuel (m / 2) + 1 + 52) = 2 ^ (excessBits fuel (m / 2) + 52) * 2 := by
        rw [← pow_succ]
      rw [e]
      omega
    · have hz : excessBits fuel (m / 2) = 0 := by
        cases fuel with
        | zero => rfl
        | succ f => simp only [excessBits, if_pos (not_le.mp h2)]
      rw [hz]
      exact hm

theorem excessBits_lt (fuel m : Nat) (hm : m < 2 ^ 53 * 2 ^ fuel) :
    m / 2 ^ excessBits fuel m < 2 ^ 53 := by
  induction fuel generalizing m with
  | zero =>
    simp only [excessBits, pow_zero, Nat.div_one]
    simpa using hm
  | succ fuel ih =>
    by_cases h : m < 2 ^ 53
    · simp only [excessBits, if_pos h, pow_zero, Nat.div_one]
      exact h
    · simp only [excessBits, if_neg h]
      have h2 : m / 2 < 2 ^ 53 * 2 ^ fuel := by
        rw [pow_succ] at hm
        omega
      have := ih (m / 2) h2
      rw [pow_succ, mul_comm, ← Nat.div_div_eq_div_mul]
      exact this

/-- The rounding keeps exactly 53 significant bits: for `m` of more than 53 bits
the quotient by `2^k`, `k = excessBits m m`, lies in `[2^52, 2^53)`. -/
theorem excessBits_exact (m : Nat) (hm : 2 ^ 53 ≤ m) :
    2 ^ 52 ≤ m / 2 ^ excessBits m m ∧ m / 2 ^ excessBits m m < 2 ^ 53 := by
  constructor
  · have h := excessBits_le m m hm
    rw [Nat.le_div_iff_mul_le (by positivity), ← pow_add, add_comm]
    exact h
  · apply excessBits_lt
    calc m < 2 ^ m := Nat.lt_two_pow m
      _ ≤ 2 ^ 53 * 2 ^ m := Nat.le_mul_of_pos_left _ (by positivity)

/-- The mantissa of `microsecond` has 53 bits and `microsecond` is the value of
that precision nearest to `10^-6`: its distance to `10^-6` is below half a unit
in the last place. -/
theorem microsecond_nearest :
    2 ^ 52 ≤ microsecond.mant ∧ microsecond.mant < 2 ^ 53 ∧ microsecond.exp = -72 ∧
    microsecond.mant * 10 ^ 6 ≤ 2 ^ 72 ∧
    2 * (2 ^ 72 - microsecond.mant * 10 ^ 6) < 10 ^ 6 := by
  simp only [microsecond]
  norm_num

theorem digitsValue_lt (ds : List Char) (hd : isDigits ds) :
    digitsValue ds < 10 ^ ds.length := by
  have key : ∀ (l : List Char) (acc : Nat), isDigits l →
      l.foldl (fun n c => n * 10 + (c.toNat - '0'.toNat)) acc + 1 ≤
        (acc + 1) * 10 ^ l.length := by
    intro l
    induction l with
    | nil =>
      intro acc _
      simp
    | cons c cs ih =>
      intro acc h
      have hc : c.isDigit = true := h c (List.mem_cons_self _ _)
      have hcs : isDigits cs := fun d hd => h d (List.mem_cons_of_mem _ hd)
      have h9 : c.toNat - '0'.toNat ≤ 9 := by
        have h57 : c.toNat ≤ 57 := by
          simp only [Char.isDigit, Bool.and_eq_true, decide_eq_true_eq] at hc
          exact hc.2
        have h48 : '0'.toNat = 48 := rfl
        rw [h48]
        omega
      rw [List.foldl_cons, List.length_cons, pow_succ]
      calc _ ≤ (acc * 10 + (c.toNat - '0'.toNat) + 1) * 10 ^ cs.length := ih _ hcs
        _ ≤ ((acc + 1) * 10) * 10 ^ cs.length := Nat.mul_le_mul_right _ (by omega)
        _ = (acc + 1) * (10 ^ cs.length * 10) := by ring
  have := key ds 0 hd
  unfold digitsValue
  omega

theorem round53_small (P : Nat) (e : Int) (hP : P + 2 ^ 19 < 2 ^ 72) :
    ∃ k : Nat, k ≤ 19 ∧ (round53 P e).2 = e + (k : Int) ∧ (round53 P e).1 * 2 ^ k < 2 ^ 72 := by
  unfold round53
  by_cases h : P < 2 ^ 53
  · refine ⟨0, by norm_num, ?_, ?_⟩
    · rw [if_pos h]
      simp
    · simp only [if_pos h, pow_zero, mul_one]
      omega
  · simp only [if_neg h]
    have hk := excessBits_le P P (not_lt.mp h)
    have hk19 : excessBits P P ≤ 19 := by
      by_contra hc
      have : 2 ^ 72 ≤ 2 ^ (excessBits P P + 52) := Nat.pow_le_pow_right (by norm_num) (by omega)
      omega
    refine ⟨excessBits P P, hk19, rfl, ?_⟩
    have hdiv : P / 2 ^ excessBits P P * 2 ^ excessBits P P ≤ P := Nat.div_mul_le_self _ _
    have hpow : 2 ^ excessBits P P ≤ 2 ^ 19 := Nat.pow_le_pow_right (by norm_num) hk19
    have hq : (if 2 ^ (excessBits P P - 1) < P % 2 ^ excessBits P P ∨
        P % 2 ^ excessBits P P = 2 ^ (excessBits P P - 1) ∧ P / 2 ^ excessBits P P % 2 = 1
        then P / 2 ^ excessBits P P + 1 else P / 2 ^ excessBits P P) ≤
        P / 2 ^ excessBits P P + 1 := by
      split_ifs <;> omega
    calc _ ≤ (P / 2 ^ excessBits P P + 1) * 2 ^ excessBits P P :=
          Nat.mul_le_mul_right _ hq
      _ = P / 2 ^ excessBits P P * 2 ^ excessBits P P + 2 ^ excessBits P P := by ring
      _ < 2 ^ 72 := by omega

theorem fraction_contributes_zero (v : Nat) (hv : v < 1000000) :
    (Float64.mul (Float64.ofInt (v : Int)) microsecond).toInt = 0 := by
  have h53 : v < 2 ^ 53 := by norm_num; omega
  have hof : Float64.ofInt (v : Int) = { neg := false, mant := v, exp := 0 } := by
    unfold Float64.ofInt round53
    rw [Int.natAbs_ofNat, if_pos h53]
    simp
  have hP : v * 4722366482869645 + 2 ^ 19 < 2 ^ 72 := by norm_num; omega
  obtain ⟨k, hk, he, hq⟩ := round53_small (v * 4722366482869645) (0 + -72) hP
  rw [hof]
  simp only [Float64.mul, microsecond, Float64.toInt, he, Bool.xor_false]
  have hneg : ¬ (0 : Int) ≤ 0 + -72 + (k : Int) := by omega
  have hexp : (-(0 + -72 + (k : Int))).toNat = 72 - k := by omega
  have hlt : (round53 (v * 4722366482869645) (0 + -72)).1 < 2 ^ (72 - k) := by
    have e : (2 : Nat) ^ 72 = 2 ^ (72 - k) * 2 ^ k := by
      rw [← pow_add]
      congr 1
      omega
    rw [e] at hq
    exact lt_of_mul_lt_mul_right hq (Nat.zero_le _)
  simp only [if_neg hneg, hexp, Nat.div_eq_of_lt hlt]
  rfl

/-- C7, counterexample: a fractional suffix of seven digits changes the result;
`00:00:10.5000000` gives 15 although `00:00:10` gives 10. -/
theorem parseTimeToSeconds_long_fraction_counted :
    parseTimeToSeconds (timecodeFrac ['0', '0'] ['0', '0'] ['1', '0']
      ['5', '0', '0', '0', '0', '0', '0']) = (15, none) ∧
    parseTimeToSeconds "00:00:10.5000000" = (15, none) ∧
    parseTimeToSeconds "00:00:10" = (10, none) := by
  refine ⟨?_, ?_, ?_⟩ <;> decide

/-- C7, amended: a fractional suffix below one million microseconds never changes
the result. For every string `H:M:S.F` in which `H`, `M`, `S` are non-empty
strings of decimal digits with `H*3600 + M*60 + S` below `2^63` and `F` is a
(possibly empty) string of decimal digits of value below 1000000, which holds
for every `F` of at most six digits, `parseTimeToSeconds` returns
`H*3600 + M*60 + S`, the value it returns for `H:M:S`. -/
theorem parseTimeToSeconds_short_fraction_ignored (H M S F : List Char)
    (hH : H ≠ []) (hM : M ≠ []) (hS : S ≠ [])
    (dH : isDigits H) (dM : isDigits M) (dS : isDigits S) (dF : isDigits F)
    (hF : digitsValue F < 1000000)
    (hsmall : digitsValue H * 3600 + digitsValue M * 60 + digitsValue S < 2 ^ 63) :
    parseTimeToSeconds (timecodeFrac H M S F) =
      (((digitsValue H * 3600 + digitsValue M * 60 + digitsValue S : Nat) : Int), none) ∧
    parseTimeToSeconds (timecodeFrac H M S F) = parseTimeToSeconds (timecode H M S) := by
  have key : parseTimeToSeconds (timecodeFrac H M S F) =
      (((digitsValue H * 3600 + digitsValue M * 60 + digitsValue S : Nat) : Int), none) := by
    have cT : ∀ c ∈ S ++ '.' :: F, c ≠ ':' := by
      intro c hc
      rcases List.mem_append.mp hc with h | h
      · exact isDigit_ne c ':' (dS c h) (by decide)
      · rcases List.mem_cons.mp h with h | h
        · rw [h]
          decide
        · exact isDigit_ne c ':' (dF c h) (by decide)
    have pS : ∀ c ∈ S, c ≠ '.' := fun c hc => isDigit_ne c '.' (dS c hc) (by decide)
    have pF : ∀ c ∈ F, c ≠ '.' := fun c hc => isDigit_ne c '.' (dF c hc) (by decide)
    have vH : digitsValue H < 2 ^ 63 := by norm_num at hsmall ⊢; omega
    have vM : digitsValue M < 2 ^ 63 := by norm_num at hsmall ⊢; omega
    have vS : digitsValue S < 2 ^ 63 := by norm_num at hsmall ⊢; omega
    have vF : digitsValue F < 2 ^ 63 := by norm_num; omega
    have hsum := wholeSeconds_small (digitsValue H) (digitsValue M) (digitsValue S)
      (by omega) (by omega) (by omega) (by norm_num at hsmall ⊢; omega)
    unfold parseTimeToSeconds timecodeFrac parseTime
    simp only [parseTime_fields H M (S ++ '.' :: F) dH dM cT]
    simp only [field, List.getD_cons_zero, List.getD_cons_succ, Atoi_digits H hH dH vH,
      Atoi_digits M hM dM vM, Split_append '.' S F pS, Split_of_not_mem '.' F pF,
      Atoi_digits S hS dS vS, hsum]
    by_cases hFe : F = []
    · subst hFe
      simp [Atoi]
    · rw [Atoi_digits F hFe dF vF]
      simp only [List.length_cons, List.length_nil, fraction_contributes_zero _ hF]
      have h1 : wrapInt (((digitsValue H : Int) * 3600 + (digitsValue M : Int) * 60 +
          (digitsValue S : Int))) =
          (digitsValue H : Int) * 3600 + (digitsValue M : Int) * 60 + (digitsValue S : Int) :=
        wrapInt_of_small _ (by omega) (by norm_num at hsmall ⊢; omega)
      simp [h1]
  exact ⟨key, by
    rw [key, parseTimeToSeconds_whole H M S hH hM hS dH dM dS hsmall]⟩

/-- C7, amended, witness: `00:00:10.500000` gives 10. -/
theorem parseTimeToSeconds_short_fraction_ignored_witness :
    parseTimeToSeconds "00:00:10.500000" = (10, none) :=
  (parseTimeToSeconds_short_fraction_ignored ['0', '0'] ['0', '0'] ['1', '0']
    ['5', '0', '0', '0', '0', '0']
    (by decide) (by decide) (by decide) (by decide) (by decide) (by decide) (by decide)
    (by decide) (by decide)).1

/-! ## The selection loop -/

theorem lastD_cons {α β : Type} (f : α → β) (d : β) (a : α) (l : List α) :
    ((a :: l).getLast?.map f).getD d = (l.getLast?.map f).getD (f a) := by
  cases l with
  | nil => rfl
  | cons b l =>
    rw [List.getLast?_cons_cons]
    cases h : (b :: l).getLast? with
    | none => simp at h
    | some x => rfl

theorem lastD_filter_cons {α β : Type} (p : α → Bool) (f : α → β) (d : β) (a : α)
    (l : List α) :
    (((a :: l).filter p).getLast?.map f).getD d =
      ((l.filter p).getLast?.map f).getD (if p a = true then f a else d) := by
  by_cases h : p a = true
  · rw [List.filter_cons_of_pos h, lastD_cons, if_pos h]
  · rw [List.filter_cons_of_neg h, if_neg h]

theorem selectionStep_ok (sel : Selection) (stream : Stream)
    (hd : stream.Duration ≠ "" → (parseTimeToSeconds stream.Duration).2 = none) :
    selectionStep sel stream = Except.ok
      { audioTrackID := if isJapaneseAudio stream = true then stream.Index else sel.audioTrackID,
        subtitleTrackID :=
          if isFrenchSubtitle stream = true then stream.Index else sel.subtitleTrackID,
        totalDuration :=
          if hasDuration stream = true then (parseTimeToSeconds stream.Duration).1
          else sel.totalDuration } := by
  unfold selectionStep isJapaneseAudio isFrenchSubtitle hasDuration
  by_cases h : stream.Duration ≠ ""
  · have h2 := hd h
    rcases hp : parseTimeToSeconds stream.Duration with ⟨d, e⟩
    rw [hp] at h2
    simp only [] at h2
    subst h2
    simp only [if_pos h, decide_eq_true_eq]
    split_ifs <;> rfl
  · simp only [if_neg h, decide_eq_true_eq]
    split_ifs <;> rfl

/-- The loop computes, for each of the three variables, the value given by the
last stream that sets it, or keeps the initial value when no stream does. -/
theorem selectionLoop_ok (streams : List Stream) (sel : Selection)
    (hd : durationsParse streams) :
    selectionLoop sel streams = Except.ok
      { audioTrackID :=
          ((streams.filter isJapaneseAudio).getLast?.map Stream.Index).getD sel.audioTrackID,
        subtitleTrackID :=
          ((streams.filter isFrenchSubtitle).getLast?.map Stream.Index).getD
            sel.subtitleTrackID,
        totalDuration :=
          ((streams.filter hasDuration).getLast?.map
            (fun s => (parseTimeToSeconds s.Duration).1)).getD sel.totalDuration } := by
  induction streams generalizing sel with
  | nil => rfl
  | cons stream rest ih =>
    have h1 : stream.Duration ≠ "" → (parseTimeToSeconds stream.Duration).2 = none :=
      hd stream (List.mem_cons_self _ _)
    have h2 : durationsParse rest := fun s hs => hd s (List.mem_cons_of_mem _ hs)
    simp only [selectionLoop, selectionStep_ok sel stream h1, ih _ h2, lastD_filter_cons]

/-- A variable that the loop has changed holds the index of a matching stream. -/
theorem selectionLoop_sound (streams : List Stream) (sel out : Selection)
    (h : selectionLoop sel streams = Except.ok out) :
    (out.audioTrackID = sel.audioTrackID ∨
      ∃ s ∈ streams, (s.CodecType = "audio" ∧ s.Language = "jpn") ∧
        out.audioTrackID = s.Index) ∧
    (out.subtitleTrackID = sel.subtitleTrackID ∨
      ∃ s ∈ streams, (s.CodecType = "subtitle" ∧ s.Language = "fre") ∧
        out.subtitleTrackID = s.Index) := by
  induction streams generalizing sel with
  | nil =>
    simp only [selectionLoop, Except.ok.injEq] at h
    subst h
    exact ⟨Or.inl rfl, Or.inl rfl⟩
  | cons stream rest ih =>
    simp only [selectionLoop] at h
    cases hs : selectionStep sel stream with
    | error f =>
      rw [hs] at h
      exact Except.noConfusion h
    | ok sel1 =>
      rw [hs] at h
      have hrec := ih sel1 h
      have hstep : (sel1.audioTrackID = sel.audioTrackID ∨
            ((stream.CodecType = "audio" ∧ stream.Language = "jpn") ∧
              sel1.audioTrackID = stream.Index)) ∧
          (sel1.subtitleTrackID = sel.subtitleTrackID ∨
            ((stream.CodecType = "subtitle" ∧ stream.Language = "fre") ∧
              sel1.subtitleTrackID = stream.Index)) := by
        unfold selectionStep at hs
        simp only [] at hs
        split_ifs at hs with a b c
        all_goals first
          | (split at hs
             · simp only [Except.ok.injEq] at hs
               subst hs
               simp_all
             · exact Except.noConfusion hs)
          | (simp only [Except.ok.injEq] at hs
             subst hs
             simp_all)
      refine ⟨?_, ?_⟩
      · rcases hrec.1 with e | ⟨s, hm, hp, e⟩
        · rcases hstep.1 with e1 | ⟨hp, e1⟩
          · exact Or.inl (e.trans e1)
          · exact Or.inr ⟨stream, List.mem_cons_self _ _, hp, e.trans e1⟩
        · exact Or.inr ⟨s, List.mem_cons_of_mem _ hm, hp, e⟩
      · rcases hrec.2 with e | ⟨s, hm, hp, e⟩
        · rcases hstep.2 with e1 | ⟨hp, e1⟩
          · exact Or.inl (e.trans e1)
          · exact Or.inr ⟨stream, List.mem_cons_self _ _, hp, e.trans e1⟩
        · exact Or.inr ⟨s, List.mem_cons_of_mem _ hm, hp, e⟩

/-- C1, counterexample: with duplicate matches the loop keeps the last ones, 7 and
9, not the first ones, 2 and 5. -/
theorem selection_keeps_last_duplicate :
    selectionLoop Selection.initial duplicateStreams = Except.ok ⟨7, 9, 0⟩ ∧
    (duplicateStreams.find? isJapaneseAudio).map Stream.Index = some 2 ∧
    (duplicateStreams.find? isFrenchSubtitle).map Stream.Index = some 5 ∧
    durationsParse duplicateStreams := by
  refine ⟨by decide, by decide, by decide, ?_⟩
  intro s hs hne
  simp only [duplicateStreams, List.mem_cons, List.mem_singleton, List.not_mem_nil,
    or_false] at hs
  rcases hs with h | h | h | h | h <;> subst h <;> exact absurd rfl hne

/-- C1, amended: track selection is last-match-wins. For every probe result that
contains an audio/jpn stream and a subtitle/fre stream and whose non-empty
duration tags all parse, the loop yields `audioTrackID` = the index field of the
last audio/jpn stream `a` and `subtitleTrackID` = the index field of the last
subtitle/fre stream `b` in sequence order. -/
theorem selection_last_match_wins (streams : List Stream) (a b : Stream)
    (ha : (streams.filter isJapaneseAudio).getLast? = some a)
    (hb : (streams.filter isFrenchSubtitle).getLast? = some b)
    (hd : durationsParse streams) :
    ∃ sel, selectionLoop Selection.initial streams = Except.ok sel ∧
      sel.audioTrackID = a.Index ∧ sel.subtitleTrackID = b.Index := by
  refine ⟨_, selectionLoop_ok streams Selection.initial hd, ?_, ?_⟩
  · simp only [ha, Option.map_some', Option.getD_some]
  · simp only [hb, Option.map_some', Option.getD_some]

/-- C1, amended, witness: audio stream 2 tagged jpn and subtitle stream 5 tagged
fre, with no further matching stream, give (2, 5). -/
theorem selection_last_match_wins_witness :
    ∃ sel, selectionLoop Selection.initial uniqueStreams = Except.ok sel ∧
      sel.audioTrackID = 2 ∧ sel.subtitleTrackID = 5 :=
  selection_last_match_wins uniqueStreams ⟨2, "audio", "jpn", ""⟩ ⟨5, "subtitle", "fre", ""⟩
    (by decide) (by decide) (by
      intro s hs hne
      simp only [uniqueStreams, List.mem_cons, List.mem_singleton, List.not_mem_nil,
        or_false] at hs
      rcases hs with h | h | h | h <;> subst h <;> exact absurd rfl hne)

/-- C3: total duration is last-wins over all streams. For every probe result in
which `s` is the last stream with a non-empty duration tag and every non-empty
duration tag parses, the loop ends with `totalDuration` equal to
`parseTimeToSeconds` of the duration tag of `s`, whatever the codec type and
language of `s`. -/
theorem totalDuration_last_wins (streams : List Stream) (s : Stream)
    (hs : (streams.filter hasDuration).getLast? = some s)
    (hd : durationsParse streams) :
    ∃ sel, selectionLoop Selection.initial streams = Except.ok sel ∧
      sel.totalDuration = (parseTimeToSeconds s.Duration).1 := by
  refine ⟨_, selectionLoop_ok streams Selection.initial hd, ?_⟩
  simp only [hs, Option.map_some', Option.getD_some]

/-- C3, witness: stream A with `00:10:00` followed by stream B with `00:20:00`
gives 1200, not 600. -/
theorem totalDuration_last_wins_witness :
    ∃ sel, selectionLoop Selection.initial twoDurations = Except.ok sel ∧
      sel.totalDuration = 1200 ∧ sel.totalDuration ≠ 600 := by
  obtain ⟨sel, h1, h2⟩ := totalDuration_last_wins twoDurations
    ⟨1, "audio", "jpn", "00:20:00"⟩ (by decide) (by
      intro s hs hne
      simp only [twoDurations, List.mem_cons, List.mem_singleton, List.not_mem_nil,
        or_false] at hs
      rcases hs with h | h | h <;> subst h <;> first | decide | exact absurd rfl hne)
  have h3 : (parseTimeToSeconds "00:20:00").1 = 1200 := by decide
  refine ⟨sel, h1, ?_, ?_⟩
  · rw [h2]
    exact h3
  · rw [h2, h3]
    decide

theorem selectTracks_sound (streams : List Stream) (sel : Selection)
    (h : selectTracks streams = Except.ok sel) :
    (∃ s ∈ streams, (s.CodecType = "audio" ∧ s.Language = "jpn") ∧
      sel.audioTrackID = s.Index) ∧
    (∃ s ∈ streams, (s.CodecType = "subtitle" ∧ s.Language = "fre") ∧
      sel.subtitleTrackID = s.Index) := by
  unfold selectTracks at h
  cases hl : selectionLoop Selection.initial streams with
  | error f =>
    rw [hl] at h
    exact Except.noConfusion h
  | ok out =>
    rw [hl] at h
    simp only [] at h
    split_ifs at h with h1 h2
    simp only [Except.ok.injEq] at h
    subst h
    have hs := selectionLoop_sound streams Selection.initial out hl
    exact ⟨hs.1.resolve_left h1, hs.2.resolve_left h2⟩

/-- C2: a returned track selection references existing streams. Whenever the
selection step gets past its two not-found checks, `audioTrackID` is the index
field of some audio/jpn stream of the probe result and `subtitleTrackID` that of
some subtitle/fre stream; and for every probe result with no audio/jpn stream, or
with no subtitle/fre stream, the selection fails, `main` ends through a fatal
error and no transcoder argument list is built. -/
theorem selection_references_existing_streams :
    (∀ (streams : List Stream) (sel : Selection), selectTracks streams = Except.ok sel →
      (∃ s ∈ streams, (s.CodecType = "audio" ∧ s.Language = "jpn") ∧
        sel.audioTrackID = s.Index) ∧
      (∃ s ∈ streams, (s.CodecType = "subtitle" ∧ s.Language = "fre") ∧
        sel.subtitleTrackID = s.Index)) ∧
    (∀ (r : Run) (files : List String) (probe : ProbeData),
      r.probe = ProbeOutcome.parsed probe →
      ((∀ s ∈ probe.Streams, ¬ (s.CodecType = "audio" ∧ s.Language = "jpn")) ∨
        (∀ s ∈ probe.Streams, ¬ (s.CodecType = "subtitle" ∧ s.Language = "fre"))) →
      (∃ f, selectTracks probe.Streams = Except.error f) ∧
      (∃ f, (main r files).exit = Exit.fatal f) ∧ (main r files).command = none) := by
  refine ⟨selectTracks_sound, ?_⟩
  intro r files probe hp hno
  have hfail : ∃ f, selectTracks probe.Streams = Except.error f := by
    cases hs : selectTracks probe.Streams with
    | error f => exact ⟨f, rfl⟩
    | ok sel =>
      have hsound := selectTracks_sound probe.Streams sel hs
      rcases hno with hno | hno
      · obtain ⟨s, hm, hq, _⟩ := hsound.1
        exact absurd hq (hno s hm)
      · obtain ⟨s, hm, hq, _⟩ := hsound.2
        exact absurd hq (hno s hm)
  obtain ⟨f, hf⟩ := hfail
  refine ⟨⟨f, hf⟩, ?_⟩
  unfold main
  by_cases hpath : r.path = ""
  · rw [if_pos hpath]
    exact ⟨⟨_, rfl⟩, rfl⟩
  · rw [if_neg hpath, hp]
    simp only [hf]
    exact ⟨⟨_, rfl⟩, rfl⟩

/-- C2, witness: the selection (2, 5) of a probe result with one match of each kind
references its streams 2 and 5, and a probe result without audio/jpn stream makes
`main` end through a fatal error with no argument list built. -/
theorem selection_references_existing_streams_witness :
    ((∃ s ∈ uniqueStreams, (s.CodecType = "audio" ∧ s.Language = "jpn") ∧
        (2 : Int) = s.Index) ∧
      (∃ s ∈ uniqueStreams, (s.CodecType = "subtitle" ∧ s.Language = "fre") ∧
        (5 : Int) = s.Index)) ∧
    ((∃ f, selectTracks noJapaneseAudio = Except.error f) ∧
      (∃ f, (main (goodRun noJapaneseAudio) []).exit = Exit.fatal f) ∧
      (main (goodRun noJapaneseAudio) []).command = none) :=
  ⟨selection_references_existing_streams.1 uniqueStreams ⟨2, 5, 0⟩ (by decide),
   selection_references_existing_streams.2 (goodRun noJapaneseAudio) [] ⟨noJapaneseAudio⟩ rfl
    (Or.inl (by decide))⟩

/-! ## The transcoder command and the temporary file -/

/-- C8, at the failing inputs: when `ffmpegCmd.Start()` or `ffmpegCmd.Wait()`
returns an error, `main` ends through `log.Fatalf` and the temporary progress
file still exists at exit; it is removed only when `main` returns. -/
theorem temp_file_kept_on_fatal_exit :
    (main startFailsRun []).exit = Exit.fatal Fatal.startingFfmpeg ∧
    "/tmp/ffmpeg_progress_1.txt" ∈ (main startFailsRun []).files ∧
    (main waitFailsRun []).exit = Exit.fatal Fatal.videoProcessing ∧
    "/tmp/ffmpeg_progress_1.txt" ∈ (main waitFailsRun []).files ∧
    (main (goodRun uniqueStreams) []).exit = Exit.completed ∧
    "/tmp/ffmpeg_progress_1.txt" ∉ (main (goodRun uniqueStreams) []).files := by
  refine ⟨?_, ?_, ?_, ?_, ?_, ?_⟩ <;> decide

theorem main_command (r : Run) (files : List String) (probe : ProbeData)
    (sel : Selection) (f : String) (hpath : r.path ≠ "")
    (hp : r.probe = ProbeOutcome.parsed probe)
    (hs : selectTracks probe.Streams = Except.ok sel) (hc : r.createTemp = some f) :
    (main r files).command = some (ffmpegArgs r.path r.output sel f) := by
  unfold main
  rw [if_neg hpath, hp]
  simp only [hs, hc]
  split_ifs <;> rfl

theorem main_command_inv (r : Run) (files : List String) (args : List String)
    (h : (main r files).command = some args) :
    ∃ (probe : ProbeData) (sel : Selection) (f : String),
      r.path ≠ "" ∧ r.probe = ProbeOutcome.parsed probe ∧
      selectTracks probe.Streams = Except.ok sel ∧ r.createTemp = some f ∧
      args = ffmpegArgs r.path r.output sel f := by
  unfold main at h
  by_cases hpath : r.path = ""
  · rw [if_pos hpath] at h
    exact Option.noConfusion h
  · rw [if_neg hpath] at h
    cases hp : r.probe with
    | commandFailed =>
      rw [hp] at h
      exact Option.noConfusion h
    | malformed =>
      rw [hp] at h
      exact Option.noConfusion h
    | parsed probe =>
      rw [hp] at h
      simp only [] at h
      cases hs : selectTracks probe.Streams with
      | error e =>
        rw [hs] at h
        exact Option.noConfusion h
      | ok sel =>
        rw [hs] at h
        simp only [] at h
        cases hc : r.createTemp with
        | none =>
          rw [hc] at h
          exact Option.noConfusion h
        | some f =>
          rw [hc] at h
          simp only [] at h
          refine ⟨probe, sel, f, hpath, rfl, hs, rfl, ?_⟩
          split_ifs at h <;> exact (Option.some.inj h).symm

/-- C9: `main` builds a transcoder argument list exactly in the runs with a
non-empty source path `p`, a probe result whose selection succeeds with audio
index `a`, and a temporary progress file `f`, and the list is then the fixed one
below, in which only `p`, the output path `o`, `a` and `f` vary; so two runs with
the same paths and progress file whose selections have the same audio index,
whatever their subtitle indices, build the same list. -/
theorem ffmpegArgs_contract :
    (∀ (r : Run) (files : List String) (args : List String),
      (main r files).command = some args ↔
      ∃ (probe : ProbeData) (sel : Selection) (f : String),
        r.path ≠ "" ∧ r.probe = ProbeOutcome.parsed probe ∧
        selectTracks probe.Streams = Except.ok sel ∧ r.createTemp = some f ∧
        args = ["ffmpeg", "-i", r.path, "-y", "-map", "0:v", "-map",
          "0:" ++ formatDecimal sel.audioTrackID, "-vf", "subtitles=" ++ r.path,
          "-c:v", "h264_nvenc", "-crf", "28", "-preset", "slow", "-c:a", "aac",
          "-b:a", "128k", "-progress", f, r.output]) ∧
    (∀ (r1 r2 : Run) (files1 files2 : List String) (probe1 probe2 : ProbeData)
      (sel1 sel2 : Selection) (f : String),
      r1.path ≠ "" → r2.path = r1.path → r2.output = r1.output →
      r1.probe = ProbeOutcome.parsed probe1 → r2.probe = ProbeOutcome.parsed probe2 →
      selectTracks probe1.Streams = Except.ok sel1 →
      selectTracks probe2.Streams = Except.ok sel2 →
      sel1.audioTrackID = sel2.audioTrackID →
      r1.createTemp = some f → r2.createTemp = some f →
      (main r1 files1).command = (main r2 files2).command ∧
      (main r1 files1).command ≠ none) ∧
    (∀ (p o f : String) (sel : Selection) (sub : Int),
      ffmpegArgs p o { sel with subtitleTrackID := sub } f = ffmpegArgs p o sel f) := by
  refine ⟨?_, ?_, fun _ _ _ _ _ => rfl⟩
  · intro r files args
    constructor
    · intro h
      obtain ⟨probe, sel, f, h1, h2, h3, h4, h5⟩ := main_command_inv r files args h
      exact ⟨probe, sel, f, h1, h2, h3, h4, h5⟩
    · rintro ⟨probe, sel, f, h1, h2, h3, h4, h5⟩
      rw [main_command r files probe sel f h1 h2 h3 h4, h5]
      rfl
  · intro r1 r2 files1 files2 probe1 probe2 sel1 sel2 f hpath hp ho hp1 hp2 hs1 hs2 ha hc1 hc2
    have hpath2 : r2.path ≠ "" := by
      rw [hp]
      exact hpath
    rw [main_command r1 files1 probe1 sel1 f hpath hp1 hs1 hc1,
      main_command r2 files2 probe2 sel2 f hpath2 hp2 hs2 hc2, hp, ho]
    refine ⟨?_, fun h => Option.noConfusion h⟩
    simp only [ffmpegArgs, ha]

/-- C9, witness: the run of `main` that selects audio stream 2 and subtitle stream
5 builds the argument list with `0:2`, and so does the run that selects audio
stream 2 and subtitle stream 6. -/
theorem ffmpegArgs_contract_witness :
    (main (goodRun uniqueStreams) []).command =
      some ["ffmpeg", "-i", "in.mkv", "-y", "-map", "0:v", "-map", "0:2", "-vf",
        "subtitles=in.mkv", "-c:v", "h264_nvenc", "-crf", "28", "-preset", "slow",
        "-c:a", "aac", "-b:a", "128k", "-progress", "/tmp/ffmpeg_progress_1.txt",
        "output.mp4"] ∧
    (main (goodRun uniqueStreams) []).command = (main (goodRun otherSubtitle) []).command ∧
    (main (goodRun uniqueStreams) []).command ≠ none :=
  ⟨(ffmpegArgs_contract.1 (goodRun uniqueStreams) [] _).mpr
      ⟨⟨uniqueStreams⟩, ⟨2, 5, 0⟩, "/tmp/ffmpeg_progress_1.txt", by decide, rfl, by decide,
        rfl, by decide⟩,
   ffmpegArgs_contract.2.1 (goodRun uniqueStreams) (goodRun otherSubtitle) [] []
      ⟨uniqueStreams⟩ ⟨otherSubtitle⟩ ⟨2, 5, 0⟩ ⟨2, 6, 0⟩ "/tmp/ffmpeg_progress_1.txt"
      (by decide) rfl rfl rfl rfl (by decide) (by decide) rfl rfl rfl⟩

/-! ## The progress monitor -/

theorem Split_length (sep : Char) (l : List Char) :
    (Split sep l).length = l.count sep + 1 := by
  induction l with
  | nil => rfl
  | cons c cs ih =>
    by_cases hc : c = sep
    · subst hc
      simp [Split, ih]
    · have hne := Split_ne_nil sep cs
      cases hS : Split sep cs with
      | nil => exact absurd hS hne
      | cons q qs =>
        rw [hS] at ih
        have hcount : (c :: cs).count sep = cs.count sep := by
          rw [List.count_cons]
          simp [hc]
        simp only [Split, if_neg hc, hS, hcount]
        exact ih

theorem Split_field_one (sep : Char) (l : List Char) (h : l.count sep = 1) :
    field (Split sep l) 1 = (l.dropWhile (fun c => c ≠ sep)).drop 1 := by
  induction l with
  | nil => simp at h
  | cons c cs ih =>
    by_cases hc : c = sep
    · subst hc
      have h0 : cs.count c = 0 := by
        rw [List.count_cons_self] at h
        omega
      have hno : ∀ d ∈ cs, d ≠ c := by
        intro d hd e
        subst e
        exact absurd (List.count_pos_iff.mpr hd) (by omega)
      simp [Split, field, Split_of_not_mem _ cs hno]
    · have hcount : (c :: cs).count sep = cs.count sep := by
        rw [List.count_cons]
        simp [hc]
      rw [hcount] at h
      have hne := Split_ne_nil sep cs
      cases hS : Split sep cs with
      | nil => exact absurd hS hne
      | cons q qs =>
        have ih1 := ih h
        rw [hS] at ih1
        simp only [field, List.getD_cons_succ] at ih1
        simp only [Split, if_neg hc, hS, field, List.getD_cons_succ, ih1]
        simp [hc]

theorem scanLine_eq_lineUpdate (bar : Int) (line : String) :
    scanLine bar line = (lineUpdate line).getD bar := by
  unfold scanLine lineUpdate
  by_cases hc : Contains line.data "out_time=".data = true
  · by_cases h1 : line.data.count '=' = 1
    · have h2 : (Split '=' line.data).length = 2 := by
        rw [Split_length, h1]
      have hcond : Contains line.data "out_time=".data = true ∧ line.data.count '=' = 1 :=
        ⟨hc, h1⟩
      rw [if_pos hc, if_pos hcond]
      simp only [h2, if_true, Split_field_one '=' line.data h1]
      generalize parseTime (TrimSpace (List.drop 1 (List.dropWhile (fun c => decide (c ≠ '='))
        line.data))) = res
      rcases res with ⟨v, e⟩
      cases e <;> rfl
    · have h2 : ¬ (Split '=' line.data).length = 2 := by
        rw [Split_length]
        omega
      have hcond : ¬ (Contains line.data "out_time=".data = true ∧ line.data.count '=' = 1) :=
        fun h => h1 h.2
      rw [if_pos hc, if_neg hcond]
      simp only [h2, if_false]
      rfl
  · have hcond : ¬ (Contains line.data "out_time=".data = true ∧ line.data.count '=' = 1) :=
      fun h => hc h.1
    rw [if_neg hc, if_neg hcond]
    rfl

theorem foldl_scanLine_eq_last (bar : Int) (lines : List String) :
    lines.foldl scanLine bar = ((lines.filterMap lineUpdate).getLast?).getD bar := by
  induction lines generalizing bar with
  | nil => rfl
  | cons l ls ih =>
    rw [List.foldl_cons, ih, scanLine_eq_lineUpdate, List.filterMap_cons]
    cases h : lineUpdate l with
    | none => rfl
    | some v =>
      simp only [Option.getD_some, List.getLast?_cons]

theorem lineUpdate_out_time (v : String) (hv : ∀ c ∈ v.data, c ≠ '=')
    (ht : TrimSpace v.data = v.data) :
    lineUpdate ("out_time=" ++ v) =
      match parseTimeToSeconds v with
      | (n, none) => some n
      | (_, some _) => none := by
  have hdata : ("out_time=" ++ v).data = "out_time=".data ++ v.data := String.data_append _ _
  have hcount : ("out_time=".data ++ v.data).count '=' = 1 := by
    rw [List.count_append, List.count_eq_zero.mpr (fun h => hv '=' h rfl)]
    decide
  have hcont : Contains ("out_time=".data ++ v.data) "out_time=".data = true := by
    have hpre : "out_time=".data.isPrefixOf ("out_time=".data ++ v.data) = true :=
      List.isPrefixOf_iff_prefix.mpr (List.prefix_append _ _)
    have hcons : "out_time=".data ++ v.data = 'o' :: ("ut_time=".data ++ v.data) := rfl
    rw [hcons] at hpre ⊢
    unfold Contains
    rw [hpre, Bool.true_or]
  have hdrop : (("out_time=".data ++ v.data).dropWhile (fun c => c ≠ '=')).drop 1 = v.data := rfl
  unfold lineUpdate parseTimeToSeconds
  rw [hdata, if_pos ⟨hcont, hcount⟩, hdrop, ht]

theorem fileLines_append (a rest : List Char) (h : ∀ c ∈ a, c ≠ '\n') :
    fileLines (a ++ '\n' :: rest) = a :: fileLines rest := by
  induction a with
  | nil => simp [fileLines]
  | cons c cs ih =>
    have hc : c ≠ '\n' := h c (List.mem_cons_self _ _)
    have hcs : ∀ d ∈ cs, d ≠ '\n' := fun d hd => h d (List.mem_cons_of_mem _ hd)
    simp [fileLines, hc, ih hcs]

theorem byteLen_replicate (n : Nat) (c : Char) :
    byteLen (List.replicate n c) = n * c.utf8Size := by
  unfold byteLen
  rw [List.map_replicate, List.sum_replicate, smul_eq_mul]

theorem takeWhile_stop {α : Type} (p : α → Bool) (ls : List α) (x : α) (rest : List α)
    (hls : ∀ l ∈ ls, p l = true) (hx : p x = false) :
    (ls ++ x :: rest).takeWhile p = ls := by
  induction ls with
  | nil => simp [List.takeWhile, hx]
  | cons l ls ih =>
    have h1 : p l = true := hls l (List.mem_cons_self _ _)
    have h2 : ∀ m ∈ ls, p m = true := fun m hm => hls m (List.mem_cons_of_mem _ hm)
    simp [List.takeWhile, h1, ih h2]

theorem scannedLines_stop (content : String) (ls : List (List Char)) (long : List Char)
    (rest : List (List Char)) (hfl : fileLines content.data = ls ++ long :: rest)
    (hls : ∀ l ∈ ls, byteLen l < MaxScanTokenSize)
    (hlong : MaxScanTokenSize ≤ byteLen long) :
    scannedLines content = ls.map (fun l => String.mk (dropCR l)) := by
  unfold scannedLines
  rw [hfl, takeWhile_stop _ ls long rest (fun l hl => decide_eq_true (hls l hl))
    (decide_eq_false (not_lt.mpr hlong)), List.map_map]
  rfl

theorem scannedLines_all (content : String)
    (h : ∀ l ∈ fileLines content.data, byteLen l < MaxScanTokenSize) :
    scannedLines content = (fileLines content.data).map (fun l => String.mk (dropCR l)) := by
  unfold scannedLines
  rw [List.takeWhile_eq_self_iff.mpr (fun l hl => decide_eq_true (h l hl)), List.map_map]
  rfl

/-- C10, counterexample: a line that only contains `out_time=` changes the
indicator although it is not of the form `out_time=<value>`, and a line
`out_time=<value>` whose value the parser accepts but which holds a second `'='`
does not change it. -/
theorem pollOnce_differs_from_specPoll :
    pollOnce 0 "xout_time=00:00:05\n" = 5 ∧ specPoll 0 "xout_time=00:00:05\n" = 0 ∧
    pollOnce 0 "out_time=00:00:05.=\n" = 0 ∧ specPoll 0 "out_time=00:00:05.=\n" = 5 ∧
    parseTimeToSeconds "00:00:05.=" = (5, none) := by
  refine ⟨?_, ?_, ?_, ?_, ?_⟩ <;> decide

/-- C10, amended: one poll sets the indicator absolutely from the lines it scans.
The scan covers the lines of the progress file in order up to, and without, the
first line of 65536 bytes or more, which ends it; all lines when none is that
long. Every scanned line that contains `out_time=`, holds exactly one `'='` and
whose text after the `'='`, trimmed of white space, is accepted by
`parseTimeToSeconds` sets the indicator to the parsed value (`lineUpdate`), and no
other line changes it; after the poll the indicator holds the value of the last
such scanned line and is unchanged when there is none. A line `out_time=<value>`
whose value has no `'='` and no surrounding white space is such a line exactly
when the parser accepts the value; a line without `out_time=` never is. -/
theorem pollOnce_sets_last_update (bar : Int) (content : String) :
    pollOnce bar content =
      (((scannedLines content).filterMap lineUpdate).getLast?).getD bar ∧
    ((∀ l ∈ fileLines content.data, byteLen l < 65536) →
      scannedLines content = (fileLines content.data).map (fun l => String.mk (dropCR l))) ∧
    (∀ (ls : List (List Char)) (long : List Char) (rest : List (List Char)),
      fileLines content.data = ls ++ long :: rest →
      (∀ l ∈ ls, byteLen l < 65536) → 65536 ≤ byteLen long →
      scannedLines content = ls.map (fun l => String.mk (dropCR l))) ∧
    (∀ line : String, scanLine bar line = (lineUpdate line).getD bar) ∧
    (∀ v : String, (∀ c ∈ v.data, c ≠ '=') → TrimSpace v.data = v.data →
      lineUpdate ("out_time=" ++ v) =
        match parseTimeToSeconds v with
        | (n, none) => some n
        | (_, some _) => none) ∧
    (∀ line : String, Contains line.data "out_time=".data = false →
      lineUpdate line = none) := by
  refine ⟨foldl_scanLine_eq_last bar (scannedLines content), scannedLines_all content,
    scannedLines_stop content, scanLine_eq_lineUpdate bar, lineUpdate_out_time, ?_⟩
  intro line h
  unfold lineUpdate
  rw [if_neg]
  rw [h]
  simp

/-- C10, amended, witness: after updates to 10 and then to 5 seconds, with an
unparsable `out_time=N/A` line in between, the indicator holds 5; and when a line
of 65536 bytes stands between an update to 3 and an update to 5 seconds, the scan
ends at it and the indicator holds 3. -/
theorem pollOnce_sets_last_update_witness :
    pollOnce 0 progressFile = 5 ∧
    pollOnce 0 longLineFile = 3 ∧
    lineUpdate "out_time=00:00:05.000000" = some 5 ∧
    lineUpdate "frame=120" = none := by
  have hx : ∀ c ∈ List.replicate 65536 'x', c ≠ '\n' := by
    intro c hc
    rw [List.eq_of_mem_replicate hc]
    decide
  have hfl : fileLines longLineFile.data =
      ["out_time=00:00:03".data] ++ List.replicate 65536 'x' ::
        fileLines "out_time=00:00:05\n".data := by
    show fileLines ("out_time=00:00:03".data ++ '\n' ::
      (List.replicate 65536 'x' ++ '\n' :: "out_time=00:00:05\n".data)) = _
    rw [fileLines_append _ _ (by decide), fileLines_append _ _ hx]
    rfl
  have hshort : ∀ l ∈ ["out_time=00:00:03".data], byteLen l < 65536 := by
    intro l hl
    rw [List.mem_singleton.mp hl]
    decide
  have hlong : 65536 ≤ byteLen (List.replicate 65536 'x') := by
    rw [byteLen_replicate]
    decide
  have hscan := (pollOnce_sets_last_update 0 longLineFile).2.2.1 _ _ _ hfl hshort hlong
  refine ⟨(pollOnce_sets_last_update 0 progressFile).1.trans (by decide), ?_,
    ((pollOnce_sets_last_update 0 "").2.2.2.2.1 "00:00:05.000000" (by decide)
      (by decide)).trans (by decide),
    (pollOnce_sets_last_update 0 "").2.2.2.2.2 "frame=120" (by decide)⟩
  rw [(pollOnce_sets_last_update 0 longLineFile).1, hscan]
  decide

end Encoder
